import Mathlib

/-
Verification of the callback-context registry and scan wrappers of the
clamav Go binding (src/clamav.go), as a shallow embedding in Lean 4.

Modelling conventions:
* Go panics are modelled as the error side of an Except value; Go functions
  that return a Go error value keep that error as an Option String in their
  ordinary return tuple, so a panic and a returned error are distinguishable
  by type.
* Calls into the foreign C library (cl_scanfile, cl_init, malloc, ...) are
  modelled by passing their outcome in as an explicit argument: the wrapper
  code under verification is exactly the Go-side control flow around them.
* C.malloc(1) is modelled as a fresh-identity allocator: the registry state
  carries a counter heapNext and every successful allocation returns a key
  never handed out before.  This captures the C guarantee that a live
  allocation is distinct from every other live allocation; identities are
  never recycled in the model, which is sound for the claims because keys
  are used purely as identity tokens and never dereferenced.  An allocation
  may also fail (malloc returning NULL), modelled by the mallocOK argument.
-/

set_option autoImplicit false

namespace Clamav

/-- Go panic values that the wrapper can raise.  The constructors carry the
three panic sites of src/clamav.go. -/
inductive GoPanic where
  /-- The panic in setContext when C.malloc returns nil. -/
  | cMalloc
  /-- The panic in findContext when the key is absent. -/
  | noContextFound
  /-- The panic in deleteContext when the key is absent. -/
  | noContextDelete
  /-- The Go runtime panic for an out-of-range slice index. -/
  | indexOutOfRange
deriving DecidableEq

/-- Engine status codes.  Modelled from the spec: the ErrorCode type and the
constants Success and Virus live in files of this repository not under src
(const.go); the wrapper only distinguishes Success, Virus and any other
engine-defined code, so the model keeps exactly that trichotomy, with the
remaining codes carried opaquely as a number. -/
inductive ErrorCode where
  | success
  | virus
  | fail (code : Nat)
deriving DecidableEq

/-- Keys handed to the foreign engine: addresses of one-byte C allocations,
used purely as identity tokens. -/
abbrev Key := Nat

/-- Association list lookup for the callbacks.cb map. -/
def lookupKey {V : Type} (k : Key) : List (Key × V) → Option V
  | [] => none
  | e :: rest => if e.1 = k then some e.2 else lookupKey k rest

/-- Removal of a key for the Go built-in delete on the callbacks.cb map. -/
def eraseKey {V : Type} (k : Key) : List (Key × V) → List (Key × V)
  | [] => []
  | e :: rest => if e.1 = k then eraseKey k rest else e :: eraseKey k rest

/-- Map assignment callbacks.cb[k] = v (overwrite semantics). -/
def insertKey {V : Type} (k : Key) (v : V) (es : List (Key × V)) : List (Key × V) :=
  (k, v) :: eraseKey k es

/-- The keys currently present in the map. -/
def keysOf {V : Type} (es : List (Key × V)) : List Key :=
  es.map Prod.fst

/-- State of the process-wide Callback registry (the callbacks global):
entries models the cb map, and heapNext models the C heap supply of fresh
addresses for C.malloc. -/
structure Registry (V : Type) where
  heapNext : Nat
  entries : List (Key × V)
deriving DecidableEq

/-- The initial registry: an empty cb map. -/
def emptyRegistry (V : Type) : Registry V :=
  ⟨0, []⟩

/-- Embedding of setContext (src/clamav.go lines 40-51): allocate a fresh
one-byte C identity (panic if malloc fails), then record key mapsto value
under the lock and return the key.  mallocOK is the outcome of the foreign
C.malloc call. -/
def setContext {V : Type} (r : Registry V) (v : V) (mallocOK : Bool) :
    Except GoPanic (Key × Registry V) :=
  if mallocOK then
    .ok (r.heapNext, ⟨r.heapNext + 1, insertKey r.heapNext v r.entries⟩)
  else
    .error .cMalloc

/-- Embedding of findContext (src/clamav.go lines 53-60): look the key up
under the lock; return the stored value, panic if absent. -/
def findContext {V : Type} (r : Registry V) (k : Key) : Except GoPanic V :=
  match lookupKey k r.entries with
  | some v => .ok v
  | none => .error .noContextFound

/-- Embedding of deleteContext (src/clamav.go lines 62-71): if the key is
present, remove the entry under the lock and C.free the key (a no-op on the
model state, since identities are never recycled); panic if absent. -/
def deleteContext {V : Type} (r : Registry V) (k : Key) :
    Except GoPanic (Registry V) :=
  match lookupKey k r.entries with
  | some _ => .ok ⟨r.heapNext, eraseKey k r.entries⟩
  | none => .error .noContextDelete

/-- Registry well-formedness: every key in the map was previously produced
by the allocator, and keys are unique.  Holds of the empty initial registry
and is preserved by every operation. -/
def wfRegistry {V : Type} (r : Registry V) : Prop :=
  (∀ k ∈ keysOf r.entries, k < r.heapNext) ∧ (keysOf r.entries).Nodup

instance {V : Type} (r : Registry V) : Decidable (wfRegistry r) := by
  unfold wfRegistry
  infer_instance

section RegistryLemmas

variable {V : Type}

theorem lookupKey_erase_self (k : Key) (es : List (Key × V)) :
    lookupKey k (eraseKey k es) = none := by
  induction es with
  | nil => rfl
  | cons e rest ih =>
    simp only [eraseKey]
    by_cases he : e.1 = k
    · rw [if_pos he]; exact ih
    · rw [if_neg he]
      simp only [lookupKey, if_neg he]
      exact ih

theorem lookupKey_erase_ne (k k2 : Key) (es : List (Key × V)) (h : k2 ≠ k) :
    lookupKey k2 (eraseKey k es) = lookupKey k2 es := by
  induction es with
  | nil => rfl
  | cons e rest ih =>
    simp only [eraseKey, lookupKey]
    by_cases he : e.1 = k
    · have he2 : ¬(e.1 = k2) := fun hh => h (hh ▸ he)
      rw [if_pos he, ih, if_neg he2]
    · rw [if_neg he]
      by_cases he2 : e.1 = k2
      · simp only [lookupKey, if_pos he2]
      · simp only [lookupKey, if_neg he2]
        exact ih

theorem lookupKey_insert_self (k : Key) (v : V) (es : List (Key × V)) :
    lookupKey k (insertKey k v es) = some v := by
  simp [insertKey, lookupKey]

theorem lookupKey_insert_ne (k k2 : Key) (v : V) (es : List (Key × V))
    (h : k2 ≠ k) : lookupKey k2 (insertKey k v es) = lookupKey k2 es := by
  have hkk : ¬(k = k2) := Ne.symm h
  simp only [insertKey, lookupKey, if_neg hkk]
  exact lookupKey_erase_ne k k2 es h

theorem mem_keysOf_erase (k k2 : Key) (es : List (Key × V)) :
    k2 ∈ keysOf (eraseKey k es) ↔ k2 ∈ keysOf es ∧ k2 ≠ k := by
  induction es with
  | nil => simp [eraseKey, keysOf]
  | cons e rest ih =>
    simp only [eraseKey, keysOf, List.map_cons, List.mem_cons] at ih ⊢
    by_cases he : e.1 = k
    · rw [if_pos he]
      constructor
      · exact fun h => ⟨Or.inr (ih.mp h).1, (ih.mp h).2⟩
      · rintro ⟨h1 | h1, h2⟩
        · exact absurd (h1.trans he) h2
        · exact ih.mpr ⟨h1, h2⟩
    · rw [if_neg he]
      simp only [List.map_cons, List.mem_cons]
      constructor
      · rintro (h1 | h1)
        · exact ⟨Or.inl h1, fun hh => he (h1 ▸ hh)⟩
        · exact ⟨Or.inr (ih.mp h1).1, (ih.mp h1).2⟩
      · rintro ⟨h1 | h1, h2⟩
        · exact Or.inl h1
        · exact Or.inr (ih.mpr ⟨h1, h2⟩)

theorem eraseKey_of_not_mem (k : Key) (es : List (Key × V))
    (h : k ∉ keysOf es) : eraseKey k es = es := by
  induction es with
  | nil => rfl
  | cons e rest ih =>
    simp only [keysOf, List.map_cons, List.mem_cons] at h
    push_neg at h
    have he : ¬(e.1 = k) := Ne.symm h.1
    simp only [eraseKey, if_neg he]
    rw [ih (by simpa [keysOf] using h.2)]

theorem lookupKey_none_iff (k : Key) (es : List (Key × V)) :
    lookupKey k es = none ↔ k ∉ keysOf es := by
  induction es with
  | nil => simp [lookupKey, keysOf]
  | cons e rest ih =>
    simp only [lookupKey, keysOf, List.map_cons, List.mem_cons] at ih ⊢
    by_cases he : e.1 = k
    · simp [he]
    · rw [if_neg he, ih]
      constructor
      · intro h
        rintro (h2 | h2)
        · exact he h2.symm
        · exact h h2
      · intro h h2
        exact h (Or.inr h2)

theorem lookupKey_isSome_iff (k : Key) (es : List (Key × V)) :
    (∃ v, lookupKey k es = some v) ↔ k ∈ keysOf es := by
  constructor
  · rintro ⟨v, hv⟩
    by_contra hk
    rw [(lookupKey_none_iff k es).mpr hk] at hv
    exact Option.noConfusion hv
  · intro hk
    rcases h : lookupKey k es with _ | v
    · rw [lookupKey_none_iff] at h
      exact absurd hk h
    · exact ⟨v, rfl⟩

theorem nodup_keysOf_erase (k : Key) (es : List (Key × V))
    (h : (keysOf es).Nodup) : (keysOf (eraseKey k es)).Nodup := by
  induction es with
  | nil => simp [eraseKey, keysOf]
  | cons e rest ih =>
    simp only [keysOf, List.map_cons, List.nodup_cons] at h
    simp only [eraseKey]
    by_cases he : e.1 = k
    · rw [if_pos he]; exact ih h.2
    · rw [if_neg he]
      simp only [keysOf, List.map_cons, List.nodup_cons]
      refine ⟨?_, ih h.2⟩
      intro hmem
      rw [show (List.map Prod.fst (eraseKey k rest)) = keysOf (eraseKey k rest) from rfl,
        mem_keysOf_erase] at hmem
      exact h.1 hmem.1

theorem length_erase_of_mem (k : Key) (es : List (Key × V))
    (hnd : (keysOf es).Nodup) (h : k ∈ keysOf es) :
    (eraseKey k es).length + 1 = es.length := by
  induction es with
  | nil => simp [keysOf] at h
  | cons e rest ih =>
    simp only [keysOf, List.map_cons, List.nodup_cons] at hnd
    simp only [keysOf, List.map_cons, List.mem_cons] at h
    simp only [eraseKey]
    by_cases he : e.1 = k
    · rw [if_pos he, eraseKey_of_not_mem k rest (by rw [← he]; exact hnd.1)]
      simp
    · rw [if_neg he]
      simp only [List.length_cons]
      rcases h with h | h
      · exact absurd h.symm he
      · rw [ih hnd.2 h]

theorem wfRegistry_empty (V : Type) : wfRegistry (emptyRegistry V) := by
  constructor
  · intro k hk
    simp [emptyRegistry, keysOf] at hk
  · simp [emptyRegistry, keysOf]

theorem keysOf_insert (k : Key) (v : V) (es : List (Key × V)) :
    keysOf (insertKey k v es) = k :: keysOf (eraseKey k es) := rfl

theorem mem_keysOf_insert (k k2 : Key) (v : V) (es : List (Key × V)) :
    k2 ∈ keysOf (insertKey k v es) ↔ k2 = k ∨ k2 ∈ keysOf es := by
  rw [keysOf_insert, List.mem_cons, mem_keysOf_erase]
  constructor
  · rintro (h | ⟨h, _⟩)
    · exact Or.inl h
    · exact Or.inr h
  · rintro (h | h)
    · exact Or.inl h
    · by_cases hk : k2 = k
      · exact Or.inl hk
      · exact Or.inr ⟨h, hk⟩

theorem wfRegistry_insert {r : Registry V} (v : V) (hwf : wfRegistry r) :
    wfRegistry ⟨r.heapNext + 1, insertKey r.heapNext v r.entries⟩ := by
  obtain ⟨hb, hnd⟩ := hwf
  constructor
  · intro k hk
    rw [show keysOf (⟨r.heapNext + 1, insertKey r.heapNext v r.entries⟩ :
        Registry V).entries = keysOf (insertKey r.heapNext v r.entries) from rfl,
      mem_keysOf_insert] at hk
    rcases hk with hk | hk
    · subst hk
      exact Nat.lt_succ_self _
    · exact Nat.lt_succ_of_lt (hb k hk)
  · rw [show keysOf (⟨r.heapNext + 1, insertKey r.heapNext v r.entries⟩ :
        Registry V).entries = keysOf (insertKey r.heapNext v r.entries) from rfl,
      keysOf_insert, List.nodup_cons]
    refine ⟨?_, nodup_keysOf_erase _ _ hnd⟩
    intro hmem
    exact absurd rfl (mem_keysOf_erase _ _ _ |>.mp hmem).2

theorem wfRegistry_erase {r : Registry V} (k : Key) (hwf : wfRegistry r) :
    wfRegistry ⟨r.heapNext, eraseKey k r.entries⟩ := by
  obtain ⟨hb, hnd⟩ := hwf
  constructor
  · intro k2 hk2
    rw [show keysOf (⟨r.heapNext, eraseKey k r.entries⟩ :
        Registry V).entries = keysOf (eraseKey k r.entries) from rfl,
      mem_keysOf_erase] at hk2
    exact hb k2 hk2.1
  · exact nodup_keysOf_erase _ _ hnd

theorem setContext_ok {r : Registry V} {v : V} {okb : Bool} {k : Key}
    {r2 : Registry V} (h : setContext r v okb = .ok (k, r2)) :
    okb = true ∧ k = r.heapNext ∧
      r2 = ⟨r.heapNext + 1, insertKey r.heapNext v r.entries⟩ := by
  cases okb
  · exact absurd h (by simp [setContext])
  · refine ⟨rfl, ?_, ?_⟩
    · have := h
      simp only [setContext, if_pos] at this
      exact (Prod.mk.injEq _ _ _ _ ▸ Except.ok.inj this).1.symm
    · have := h
      simp only [setContext, if_pos] at this
      exact (Prod.mk.injEq _ _ _ _ ▸ Except.ok.inj this).2.symm

theorem setContext_false (r : Registry V) (v : V) :
    setContext r v false = .error .cMalloc := rfl

theorem deleteContext_ok {r : Registry V} {k : Key} {r2 : Registry V}
    (h : deleteContext r k = .ok r2) :
    k ∈ keysOf r.entries ∧ r2 = ⟨r.heapNext, eraseKey k r.entries⟩ := by
  unfold deleteContext at h
  split at h
  next v hl =>
    exact ⟨(lookupKey_isSome_iff k r.entries).mp ⟨v, hl⟩, (Except.ok.inj h).symm⟩
  next hl => exact Except.noConfusion h

theorem findContext_eq_of_lookup {r : Registry V} {k : Key} {v : V}
    (h : lookupKey k r.entries = some v) : findContext r k = .ok v := by
  unfold findContext
  rw [h]

theorem findContext_of_not_mem {r : Registry V} {k : Key}
    (h : k ∉ keysOf r.entries) : findContext r k = .error .noContextFound := by
  unfold findContext
  rw [(lookupKey_none_iff k r.entries).mpr h]

theorem deleteContext_of_not_mem {r : Registry V} {k : Key}
    (h : k ∉ keysOf r.entries) : deleteContext r k = .error .noContextDelete := by
  unfold deleteContext
  rw [(lookupKey_none_iff k r.entries).mpr h]

theorem findContext_ok {r : Registry V} {k : Key} {v : V}
    (h : findContext r k = .ok v) : lookupKey k r.entries = some v := by
  unfold findContext at h
  split at h
  next v2 hl => rw [hl, Except.ok.inj h]
  next hl => exact Except.noConfusion h

end RegistryLemmas

/-- One registry operation of an operation sequence; each of the three holds
the registry lock for its whole body, so a concurrent history is some
interleaving into such a sequence.  set carries the outcome of its C.malloc
call together with the value being registered. -/
inductive Op (V : Type) where
  | set (mallocOK : Bool) (v : V)
  | find (k : Key)
  | del (k : Key)
deriving DecidableEq

/-- Run a sequence of registry operations from a starting registry, stopping
at the first panic.  Returns the final registry, the list of keys returned
by the setContext calls, and the list of keys passed to completed
deleteContext calls. -/
def runTrace {V : Type} (r : Registry V) :
    List (Op V) → Except GoPanic (Registry V × List Key × List Key)
  | [] => .ok (r, [], [])
  | .set okb v :: rest =>
    match setContext r v okb with
    | .ok (k, r2) =>
      match runTrace r2 rest with
      | .ok (r3, minted, deleted) => .ok (r3, k :: minted, deleted)
      | .error e => .error e
    | .error e => .error e
  | .find k :: rest =>
    match findContext r k with
    | .ok _ => runTrace r rest
    | .error e => .error e
  | .del k :: rest =>
    match deleteContext r k with
    | .ok r2 =>
      match runTrace r2 rest with
      | .ok (r3, minted, deleted) => .ok (r3, minted, k :: deleted)
      | .error e => .error e
    | .error e => .error e

section TraceLemmas

variable {V : Type}

theorem runTrace_cons_set_inv {r : Registry V} {okb : Bool} {v : V}
    {rest : List (Op V)} {r2 : Registry V} {minted deleted : List Key}
    (h : runTrace r (Op.set okb v :: rest) = .ok (r2, minted, deleted)) :
    ∃ k r1 m2, setContext r v okb = .ok (k, r1) ∧
      runTrace r1 rest = .ok (r2, m2, deleted) ∧ minted = k :: m2 := by
  rcases hset : setContext r v okb with e | ⟨k, r1⟩
  · simp only [runTrace, hset] at h
    exact Except.noConfusion h
  · simp only [runTrace, hset] at h
    rcases hrest : runTrace r1 rest with e2 | ⟨r3, m2, d2⟩
    · simp only [hrest] at h
      exact Except.noConfusion h
    · simp only [hrest] at h
      cases h
      exact ⟨k, r1, m2, rfl, hrest, rfl⟩

theorem runTrace_cons_find_inv {r : Registry V} {k : Key}
    {rest : List (Op V)} {out : Registry V × List Key × List Key}
    (h : runTrace r (Op.find k :: rest) = .ok out) :
    (∃ v, findContext r k = .ok v) ∧ runTrace r rest = .ok out := by
  rcases hf : findContext r k with e | v
  · simp only [runTrace, hf] at h
    exact Except.noConfusion h
  · simp only [runTrace, hf] at h
    exact ⟨⟨v, rfl⟩, h⟩

theorem runTrace_cons_del_inv {r : Registry V} {k : Key}
    {rest : List (Op V)} {r2 : Registry V} {minted deleted : List Key}
    (h : runTrace r (Op.del k :: rest) = .ok (r2, minted, deleted)) :
    ∃ r1 d2, deleteContext r k = .ok r1 ∧
      runTrace r1 rest = .ok (r2, minted, d2) ∧ deleted = k :: d2 := by
  rcases hd : deleteContext r k with e | r1
  · simp only [runTrace, hd] at h
    exact Except.noConfusion h
  · simp only [runTrace, hd] at h
    rcases hrest : runTrace r1 rest with e2 | ⟨r3, m2, d2⟩
    · simp only [hrest] at h
      exact Except.noConfusion h
    · simp only [hrest] at h
      cases h
      exact ⟨r1, d2, rfl, hrest, rfl⟩

theorem runTrace_nil_inv {r : Registry V} {out : Registry V × List Key × List Key}
    (h : runTrace r [] = .ok out) : out = (r, [], []) := by
  simp only [runTrace] at h
  exact (Except.ok.inj h).symm

theorem runTrace_minted_ge :
    ∀ (ops : List (Op V)) (r r2 : Registry V) (minted deleted : List Key),
    runTrace r ops = .ok (r2, minted, deleted) →
    ∀ m ∈ minted, r.heapNext ≤ m := by
  intro ops
  induction ops with
  | nil =>
    intro r r2 minted deleted hrun m hm
    cases runTrace_nil_inv hrun
    simp at hm
  | cons op rest ih =>
    intro r r2 minted deleted hrun m hm
    cases op with
    | set okb v =>
      obtain ⟨k, r1, m2, hset, hrest, hminted⟩ := runTrace_cons_set_inv hrun
      obtain ⟨hok, hk, hr1⟩ := setContext_ok hset
      subst hminted
      rcases List.mem_cons.mp hm with hm | hm
      · subst hm
        exact Nat.le_of_eq hk.symm
      · have hge := ih _ _ _ _ hrest m hm
        rw [hr1] at hge
        exact Nat.le_of_succ_le hge
    | find k =>
      obtain ⟨_, hrest⟩ := runTrace_cons_find_inv hrun
      exact ih _ _ _ _ hrest m hm
    | del k =>
      obtain ⟨r1, d2, hdel, hrest, hdeleted⟩ := runTrace_cons_del_inv hrun
      obtain ⟨hmem, hr1⟩ := deleteContext_ok hdel
      have hge := ih _ _ _ _ hrest m hm
      rw [hr1] at hge
      exact hge

theorem runTrace_lookup_preserved :
    ∀ (ops : List (Op V)) (r : Registry V) (k : Key) (v : V)
      (r2 : Registry V) (minted deleted : List Key),
    wfRegistry r → lookupKey k r.entries = some v →
    Op.del k ∉ ops →
    runTrace r ops = .ok (r2, minted, deleted) →
    lookupKey k r2.entries = some v := by
  intro ops
  induction ops with
  | nil =>
    intro r k v r2 minted deleted hwf hlook hnodel hrun
    cases runTrace_nil_inv hrun
    exact hlook
  | cons op rest ih =>
    intro r k v r2 minted deleted hwf hlook hnodel hrun
    have hnodel2 : Op.del k ∉ rest := fun hmem => hnodel (List.mem_cons_of_mem _ hmem)
    cases op with
    | set okb v2 =>
      obtain ⟨k2, r1, m2, hset, hrest, hminted⟩ := runTrace_cons_set_inv hrun
      obtain ⟨hok, hk2, hr1⟩ := setContext_ok hset
      have hklt : k < r.heapNext :=
        hwf.1 k ((lookupKey_isSome_iff k r.entries).mp ⟨v, hlook⟩)
      have hlook1 : lookupKey k r1.entries = some v := by
        rw [hr1]
        rw [show (⟨r.heapNext + 1, insertKey r.heapNext v2 r.entries⟩ :
          Registry V).entries = insertKey r.heapNext v2 r.entries from rfl]
        rw [lookupKey_insert_ne _ _ _ _ (Nat.ne_of_lt hklt)]
        exact hlook
      have hwf1 : wfRegistry r1 := by
        rw [hr1]
        exact wfRegistry_insert v2 hwf
      exact ih _ _ _ _ _ _ hwf1 hlook1 hnodel2 hrest
    | find k2 =>
      obtain ⟨_, hrest⟩ := runTrace_cons_find_inv hrun
      exact ih _ _ _ _ _ _ hwf hlook hnodel2 hrest
    | del k2 =>
      have hkne : k ≠ k2 := by
        intro hkk
        exact hnodel (by rw [hkk]; exact List.mem_cons_self _ _)
      obtain ⟨r1, d2, hdel, hrest, hdeleted⟩ := runTrace_cons_del_inv hrun
      obtain ⟨hmem, hr1⟩ := deleteContext_ok hdel
      have hlook1 : lookupKey k r1.entries = some v := by
        rw [hr1]
        rw [show (⟨r.heapNext, eraseKey k2 r.entries⟩ :
          Registry V).entries = eraseKey k2 r.entries from rfl]
        rw [lookupKey_erase_ne _ _ _ hkne]
        exact hlook
      have hwf1 : wfRegistry r1 := by
        rw [hr1]
        exact wfRegistry_erase k2 hwf
      exact ih _ _ _ _ _ _ hwf1 hlook1 hnodel2 hrest

end TraceLemmas

section TraceAccounting

variable {V : Type}

theorem runTrace_keys :
    ∀ (ops : List (Op V)) (r r2 : Registry V) (minted deleted : List Key),
    wfRegistry r →
    runTrace r ops = .ok (r2, minted, deleted) →
    ∀ k, k ∈ keysOf r2.entries ↔
      ((k ∈ keysOf r.entries ∨ k ∈ minted) ∧ k ∉ deleted) := by
  intro ops
  induction ops with
  | nil =>
    intro r r2 minted deleted hwf hrun k
    cases runTrace_nil_inv hrun
    simp
  | cons op rest ih =>
    intro r r2 minted deleted hwf hrun k
    cases op with
    | set okb v =>
      obtain ⟨k2, r1, m2, hset, hrest, hminted⟩ := runTrace_cons_set_inv hrun
      obtain ⟨hok, hk2, hr1⟩ := setContext_ok hset
      subst hminted
      subst hk2
      have hwf1 : wfRegistry r1 := hr1 ▸ wfRegistry_insert v hwf
      rw [ih _ _ _ _ hwf1 hrest k]
      subst hr1
      rw [show (⟨r.heapNext + 1, insertKey r.heapNext v r.entries⟩ :
        Registry V).entries = insertKey r.heapNext v r.entries from rfl,
        mem_keysOf_insert, List.mem_cons]
      tauto
    | find k2 =>
      obtain ⟨_, hrest⟩ := runTrace_cons_find_inv hrun
      exact ih _ _ _ _ hwf hrest k
    | del k0 =>
      obtain ⟨r1, d2, hdel, hrest, hdeleted⟩ := runTrace_cons_del_inv hrun
      obtain ⟨hmem, hr1⟩ := deleteContext_ok hdel
      subst hdeleted
      have hwf1 : wfRegistry r1 := hr1 ▸ wfRegistry_erase k0 hwf
      rw [ih _ _ _ _ hwf1 hrest k]
      have hminted_ge := runTrace_minted_ge _ _ _ _ _ hrest
      have hk0lt : k0 < r.heapNext := hwf.1 k0 hmem
      subst hr1
      have hk0nm : k0 ∉ minted := fun hm =>
        absurd hk0lt (Nat.not_lt.mpr (hminted_ge k0 hm))
      rw [show (⟨r.heapNext, eraseKey k0 r.entries⟩ :
        Registry V).entries = eraseKey k0 r.entries from rfl]
      by_cases hk : k = k0
      · subst hk
        simp only [mem_keysOf_erase, List.mem_cons]
        constructor
        · rintro ⟨⟨_, hne⟩ | hm, _⟩
          · exact absurd rfl hne
          · exact absurd hm hk0nm
        · rintro ⟨_, hnd⟩
          exact absurd (Or.inl trivial) hnd
      · simp only [mem_keysOf_erase, List.mem_cons]
        constructor
        · rintro ⟨⟨hmem2, _⟩ | hm, hnd⟩
          · exact ⟨Or.inl hmem2, fun hh => hh.elim (fun hh2 => hk hh2) hnd⟩
          · exact ⟨Or.inr hm, fun hh => hh.elim (fun hh2 => hk hh2) hnd⟩
        · rintro ⟨hmem2 | hm, hnd⟩
          · exact ⟨Or.inl ⟨hmem2, hk⟩, fun hh => hnd (Or.inr hh)⟩
          · exact ⟨Or.inr hm, fun hh => hnd (Or.inr hh)⟩

theorem runTrace_minted_nodup :
    ∀ (ops : List (Op V)) (r r2 : Registry V) (minted deleted : List Key),
    runTrace r ops = .ok (r2, minted, deleted) → minted.Nodup := by
  intro ops
  induction ops with
  | nil =>
    intro r r2 minted deleted hrun
    cases runTrace_nil_inv hrun
    simp
  | cons op rest ih =>
    intro r r2 minted deleted hrun
    cases op with
    | set okb v =>
      obtain ⟨k2, r1, m2, hset, hrest, hminted⟩ := runTrace_cons_set_inv hrun
      obtain ⟨hok, hk2, hr1⟩ := setContext_ok hset
      subst hminted
      rw [List.nodup_cons]
      refine ⟨?_, ih _ _ _ _ hrest⟩
      intro hmem
      have hge := runTrace_minted_ge _ _ _ _ _ hrest k2 hmem
      rw [hr1] at hge
      rw [hk2] at hge
      exact absurd hge (Nat.not_le.mpr (Nat.lt_succ_self r.heapNext))
    | find k2 =>
      obtain ⟨_, hrest⟩ := runTrace_cons_find_inv hrun
      exact ih _ _ _ _ hrest
    | del k0 =>
      obtain ⟨r1, d2, hdel, hrest, hdeleted⟩ := runTrace_cons_del_inv hrun
      exact ih _ _ _ _ hrest

end TraceAccounting

/-- Outcome of a foreign scan entry point (cl_scanfile, cl_scandesc,
cl_scanfile_callback, cl_scanmap_callback): the status code it returned and
the values it stored through the virus-name and scanned-bytes out-parameters. -/
structure ScanOutcome where
  err : ErrorCode
  virname : String
  scanned : Nat
deriving DecidableEq

/-- The return-value branch shared verbatim by ScanDesc, ScanFile, ScanFileCb
and ScanMapCb: Success gives an empty name, zero count and nil error; Virus
gives the reported name, the scanned count and a non-nil error; any other
code gives an empty name, zero count and a non-nil error.  strErr models the
foreign cl_strerror. -/
def scanReturn (strErr : ErrorCode → String) (o : ScanOutcome) :
    String × Nat × Option String :=
  match o.err with
  | .success => ("", 0, none)
  | .virus => (o.virname, o.scanned, some (strErr .virus))
  | .fail c => ("", 0, some (strErr (.fail c)))

/-- Embedding of ScanFile (src/clamav.go lines 224-237); the path string and
engine handle only flow into the foreign call, whose outcome is o. -/
def ScanFile (strErr : ErrorCode → String) (o : ScanOutcome) :
    String × Nat × Option String :=
  scanReturn strErr o

/-- Embedding of ScanDesc (src/clamav.go lines 204-217); the descriptor and
filename only flow into the foreign call, whose outcome is o. -/
def ScanDesc (strErr : ErrorCode → String) (o : ScanOutcome) :
    String × Nat × Option String :=
  scanReturn strErr o

/-- Embedding of ScanFileCb (src/clamav.go lines 248-269): register the
context (setContext), run the foreign scan with the returned key, then the
deferred deleteContext runs on every return path before the three-way branch
value is handed back.  The registry threading is explicit; mallocOK is the
outcome of the C.malloc inside setContext and o the outcome of the foreign
cl_scanfile_callback. -/
def ScanFileCb {V : Type} (strErr : ErrorCode → String) (r : Registry V)
    (context : V) (mallocOK : Bool) (o : ScanOutcome) :
    Except GoPanic ((String × Nat × Option String) × Registry V) :=
  match setContext r context mallocOK with
  | .error e => .error e
  | .ok (cctx, r1) =>
    match deleteContext r1 cctx with
    | .error e => .error e
    | .ok r2 => .ok (scanReturn strErr o, r2)

/-- Embedding of ScanMapCb (src/clamav.go lines 282-302): identical
register-scan-unregister shape around cl_scanmap_callback. -/
def ScanMapCb {V : Type} (strErr : ErrorCode → String) (r : Registry V)
    (context : V) (mallocOK : Bool) (o : ScanOutcome) :
    Except GoPanic ((String × Nat × Option String) × Registry V) :=
  match setContext r context mallocOK with
  | .error e => .error e
  | .ok (cctx, r1) =>
    match deleteContext r1 cctx with
    | .error e => .error e
    | .ok r2 => .ok (scanReturn strErr o, r2)

/-- Embedding of Init (src/clamav.go lines 75-86) together with its initOnce
guard: done says whether the sync.Once already fired; clInit models cl_init
on the flags argument.  onceerr is a fresh local on every call, so a call
whose once-body is skipped returns nil no matter what the first call saw.
Returns the new done state and the Go error value. -/
def Init (strErr : ErrorCode → String) (clInit : Nat → ErrorCode)
    (done : Bool) (flags : Nat) : Bool × Option String :=
  if done then
    (true, none)
  else
    match clInit flags with
    | .success => (true, none)
    | e => (true, some ("Init: " ++ strErr e))

/-- Embedding of OpenMemory (src/clamav.go lines 272-274): it takes the
address of element 0 of the slice unconditionally, which is a Go runtime
panic when the slice is empty; otherwise the foreign cl_fmap_open_memory
result (modelled as the foreignFmap argument) is returned. -/
def OpenMemory (foreignFmap : Nat) (start : List UInt8) :
    Except GoPanic Nat :=
  match start with
  | [] => .error .indexOutOfRange
  | _ :: _ => .ok foreignFmap

/-- Foreign-side contents of one cl_stat structure. -/
inductive StatCell where
  | uninitialized
  | initialized
  | freed
deriving DecidableEq

/-- Heap of Stat structures: cells maps the address of each structure to its
contents and next supplies fresh addresses for new(Stat). -/
structure StatHeap where
  next : Nat
  cells : List (Nat × StatCell)
deriving DecidableEq

/-- Embedding of StatChkReload (src/clamav.go lines 356-363).  p is the
caller's pointer to its Stat structure (a Go pointer passed by value, so the
assignment stat = new(Stat) inside the body only rebinds the local copy);
changed is the foreign cl_statchkdir result and iniErr the error returned by
StatIniDir on the freshly allocated structure.  On a change it frees the
caller's structure (StatFree), allocates a new one into the local variable,
initializes that new one, and returns (true, iniErr); the caller is never
given the new address. -/
def StatChkReload (h : StatHeap) (p : Nat) (changed : Bool)
    (iniErr : Option String) : StatHeap × Bool × Option String :=
  if changed then
    let h1 : StatHeap := ⟨h.next, insertKey p .freed h.cells⟩
    let q := h1.next
    let h2 : StatHeap := ⟨h1.next + 1, insertKey q .uninitialized h1.cells⟩
    let h3 : StatHeap := ⟨h2.next, insertKey q .initialized h2.cells⟩
    (h3, true, iniErr)
  else
    (h, false, none)

/-- C1: for every value v, resolving the key returned by registering v
yields v again: after setContext(v) returns key k, findContext(k) returns v
at any later point of a panic-free operation sequence that contains no
deleteContext(k), regardless of what other entries the registry holds and
what the other operations register, resolve or delete. -/
theorem C1_resolve_after_register {V : Type} (r : Registry V) (v : V)
    (k : Key) (r1 : Registry V) (ops : List (Op V)) (r2 : Registry V)
    (minted deleted : List Key)
    (hwf : wfRegistry r)
    (hset : setContext r v true = .ok (k, r1))
    (hnodel : Op.del k ∉ ops)
    (hrun : runTrace r1 ops = .ok (r2, minted, deleted)) :
    findContext r2 k = .ok v := by
  obtain ⟨_, hk, hr1⟩ := setContext_ok hset
  subst hk
  have hlook1 : lookupKey r.heapNext r1.entries = some v := by
    rw [hr1]
    exact lookupKey_insert_self _ _ _
  have hwf1 : wfRegistry r1 := hr1 ▸ wfRegistry_insert v hwf
  exact findContext_eq_of_lookup
    (runTrace_lookup_preserved ops r1 r.heapNext v r2 minted deleted
      hwf1 hlook1 hnodel hrun)

theorem C1_resolve_after_register_witness :
    findContext (⟨2, [(0, 42)]⟩ : Registry Nat) 0 = .ok 42 :=
  C1_resolve_after_register (emptyRegistry Nat) 42 0 ⟨1, [(0, 42)]⟩
    [Op.set true 7, Op.del 1] ⟨2, [(0, 42)]⟩ [1] [1]
    (by decide) rfl (by decide) rfl

/-- C2: ScanFileCb and ScanMapCb register their context argument before the
foreign scan entry point and unregister it after the scan call returns on
every exit path, whatever the engine reported (clean, virus, or a scan
error): both calls succeed without panicking and the registry's entry table
after the call equals the entry table before it (only the identity
allocator's counter has advanced), so the net change on the registry is
zero. -/
theorem C2_scan_cb_unregisters_on_every_path {V : Type}
    (strErr : ErrorCode → String) (r : Registry V) (ctx : V) (o : ScanOutcome)
    (hwf : wfRegistry r) :
    ScanFileCb strErr r ctx true o =
      .ok (scanReturn strErr o, ⟨r.heapNext + 1, r.entries⟩)
    ∧ ScanMapCb strErr r ctx true o =
      .ok (scanReturn strErr o, ⟨r.heapNext + 1, r.entries⟩) := by
  have hfresh : r.heapNext ∉ keysOf r.entries := fun hmem =>
    absurd (hwf.1 _ hmem) (Nat.lt_irrefl _)
  have hentry : eraseKey r.heapNext (insertKey r.heapNext ctx r.entries) =
      r.entries := by
    simp only [insertKey, eraseKey, if_pos rfl]
    rw [eraseKey_of_not_mem _ _ hfresh, eraseKey_of_not_mem _ _ hfresh]
    simp
  have hset : setContext r ctx true =
      .ok (r.heapNext, ⟨r.heapNext + 1, insertKey r.heapNext ctx r.entries⟩) := rfl
  have hdel : deleteContext
      (⟨r.heapNext + 1, insertKey r.heapNext ctx r.entries⟩ : Registry V)
      r.heapNext = .ok ⟨r.heapNext + 1, r.entries⟩ := by
    unfold deleteContext
    rw [show (⟨r.heapNext + 1, insertKey r.heapNext ctx r.entries⟩ :
      Registry V).entries = insertKey r.heapNext ctx r.entries from rfl,
      lookupKey_insert_self]
    rw [hentry]
  have h1 : ScanFileCb strErr r ctx true o =
      .ok (scanReturn strErr o, ⟨r.heapNext + 1, r.entries⟩) := by
    simp only [ScanFileCb, hset, hdel]
  exact ⟨h1, h1⟩

theorem C2_scan_cb_unregisters_on_every_path_witness :
    (ScanFileCb (fun _ => "e") (emptyRegistry Nat) 5 true ⟨.virus, "X", 3⟩ =
      .ok (("X", 3, some "e"), ⟨1, []⟩))
    ∧ (ScanMapCb (fun _ => "e") (emptyRegistry Nat) 5 true ⟨.virus, "X", 3⟩ =
      .ok (("X", 3, some "e"), ⟨1, []⟩)) :=
  C2_scan_cb_unregisters_on_every_path (fun _ => "e") (emptyRegistry Nat) 5
    ⟨.virus, "X", 3⟩ (by decide)

/-- C3: calling findContext or deleteContext with a key that is not
currently registered is a panic, and in particular after deleteContext(k)
succeeds both findContext(k) and deleteContext(k) panic: a released key
never resolves to stale data and is never removable twice. -/
theorem C3_unregistered_key_fatal {V : Type} :
    (∀ (r : Registry V) (k : Key), k ∉ keysOf r.entries →
      findContext r k = .error .noContextFound ∧
      deleteContext r k = .error .noContextDelete)
    ∧ (∀ (r r2 : Registry V) (k : Key), deleteContext r k = .ok r2 →
      findContext r2 k = .error .noContextFound ∧
      deleteContext r2 k = .error .noContextDelete) := by
  constructor
  · intro r k h
    exact ⟨findContext_of_not_mem h, deleteContext_of_not_mem h⟩
  · intro r r2 k h
    obtain ⟨hmem, hr2⟩ := deleteContext_ok h
    have h2 : k ∉ keysOf r2.entries := by
      rw [hr2, show (⟨r.heapNext, eraseKey k r.entries⟩ :
        Registry V).entries = eraseKey k r.entries from rfl]
      intro hm
      exact (mem_keysOf_erase _ _ _ |>.mp hm).2 rfl
    exact ⟨findContext_of_not_mem h2, deleteContext_of_not_mem h2⟩

theorem C3_unregistered_key_fatal_witness :
    (findContext (⟨2, [(1, 7)]⟩ : Registry Nat) 0 = .error .noContextFound ∧
     deleteContext (⟨2, [(1, 7)]⟩ : Registry Nat) 0 = .error .noContextDelete)
    ∧ (findContext (⟨2, []⟩ : Registry Nat) 1 = .error .noContextFound ∧
     deleteContext (⟨2, []⟩ : Registry Nat) 1 = .error .noContextDelete) :=
  ⟨(C3_unregistered_key_fatal (V := Nat)).1 ⟨2, [(1, 7)]⟩ 0 (by decide),
   (C3_unregistered_key_fatal (V := Nat)).2 ⟨2, [(1, 7)]⟩ ⟨2, []⟩ 1 rfl⟩

/-- C4: setContext panics (it does not return a Go error value: its only
failure channel is the GoPanic side of the Except) when the foreign-heap
allocator cannot produce a new key identity, and on the success path it
always records the new key-to-value mapping. -/
theorem C4_setContext_malloc_failure_panics {V : Type} :
    (∀ (r : Registry V) (v : V), setContext r v false = .error .cMalloc)
    ∧ (∀ (r : Registry V) (v : V), ∃ k r2,
        setContext r v true = .ok (k, r2) ∧ lookupKey k r2.entries = some v) := by
  constructor
  · intro r v
    rfl
  · intro r v
    exact ⟨r.heapNext, ⟨r.heapNext + 1, insertKey r.heapNext v r.entries⟩,
      rfl, lookupKey_insert_self _ _ _⟩

/-- C5: for every finite sequence of registry operations run from the empty
registry without panicking, the keys present afterwards are exactly the keys
returned by setContext calls minus the keys passed to completed
deleteContext calls; moreover a successful setContext adds exactly one entry
(the new key mapped to the value) and a successful deleteContext removes
exactly one entry. -/
theorem C5_trace_key_accounting {V : Type} :
    (∀ (ops : List (Op V)) (r2 : Registry V) (minted deleted : List Key),
      runTrace (emptyRegistry V) ops = .ok (r2, minted, deleted) →
      ∀ k, k ∈ keysOf r2.entries ↔ (k ∈ minted ∧ k ∉ deleted))
    ∧ (∀ (r : Registry V) (v : V) (k : Key) (r2 : Registry V),
        wfRegistry r → setContext r v true = .ok (k, r2) →
        r2.entries.length = r.entries.length + 1 ∧
        lookupKey k r2.entries = some v)
    ∧ (∀ (r : Registry V) (k : Key) (r2 : Registry V),
        wfRegistry r → deleteContext r k = .ok r2 →
        r2.entries.length + 1 = r.entries.length) := by
  refine ⟨?_, ?_, ?_⟩
  · intro ops r2 minted deleted hrun k
    rw [runTrace_keys ops (emptyRegistry V) r2 minted deleted
      (wfRegistry_empty V) hrun k]
    simp [emptyRegistry, keysOf]
  · intro r v k r2 hwf hset
    obtain ⟨_, hk, hr2⟩ := setContext_ok hset
    subst hk
    subst hr2
    have hfresh : r.heapNext ∉ keysOf r.entries := fun hm =>
      absurd (hwf.1 _ hm) (Nat.lt_irrefl _)
    constructor
    · show (insertKey r.heapNext v r.entries).length = r.entries.length + 1
      simp [insertKey, eraseKey_of_not_mem _ _ hfresh]
    · exact lookupKey_insert_self _ _ _
  · intro r k r2 hwf hdel
    obtain ⟨hmem, hr2⟩ := deleteContext_ok hdel
    subst hr2
    exact length_erase_of_mem k r.entries hwf.2 hmem

theorem C5_trace_key_accounting_witness :
    (1 ∈ keysOf ((⟨2, [(1, 6)]⟩ : Registry Nat)).entries ↔
      (1 ∈ [0, 1] ∧ 1 ∉ [0]))
    ∧ ((⟨1, [(0, 9)]⟩ : Registry Nat).entries.length =
        (emptyRegistry Nat).entries.length + 1 ∧
       lookupKey 0 (⟨1, [(0, 9)]⟩ : Registry Nat).entries = some 9)
    ∧ ((⟨1, []⟩ : Registry Nat).entries.length + 1 =
        (⟨1, [(0, 9)]⟩ : Registry Nat).entries.length) :=
  ⟨(C5_trace_key_accounting (V := Nat)).1 [Op.set true 4, Op.set true 6, Op.del 0]
      ⟨2, [(1, 6)]⟩ [0, 1] [0] rfl 1,
   (C5_trace_key_accounting (V := Nat)).2.1 (emptyRegistry Nat) 9 0
      ⟨1, [(0, 9)]⟩ (by decide) rfl,
   (C5_trace_key_accounting (V := Nat)).2.2 ⟨1, [(0, 9)]⟩ 0 ⟨1, []⟩
      (by decide) rfl⟩

/-- C6: every successful setContext returns a key distinct from every key
currently live in the registry, independently of the value being registered
(so two calls with equal values still get distinct keys); and along any
panic-free operation sequence the minted keys are pairwise distinct and
disjoint from the initially live keys, so a key is never re-registered after
being released (an entry is only ever created under a freshly minted key). -/
theorem C6_fresh_keys {V : Type} :
    (∀ (r : Registry V) (v : V) (k : Key) (r2 : Registry V), wfRegistry r →
      setContext r v true = .ok (k, r2) → k ∉ keysOf r.entries)
    ∧ (∀ (ops : List (Op V)) (r r2 : Registry V) (minted deleted : List Key),
        wfRegistry r → runTrace r ops = .ok (r2, minted, deleted) →
        minted.Nodup ∧ ∀ m ∈ minted, m ∉ keysOf r.entries) := by
  constructor
  · intro r v k r2 hwf hset
    obtain ⟨_, hk, _⟩ := setContext_ok hset
    subst hk
    exact fun hm => absurd (hwf.1 _ hm) (Nat.lt_irrefl _)
  · intro ops r r2 minted deleted hwf hrun
    refine ⟨runTrace_minted_nodup ops r r2 minted deleted hrun, ?_⟩
    intro m hm hmem
    exact absurd (hwf.1 m hmem)
      (Nat.not_lt.mpr (runTrace_minted_ge ops r r2 minted deleted hrun m hm))

theorem C6_fresh_keys_witness :
    (0 ∉ keysOf (emptyRegistry Nat).entries)
    ∧ ([0, 1].Nodup ∧ ∀ m ∈ [0, 1], m ∉ keysOf (emptyRegistry Nat).entries) :=
  ⟨(C6_fresh_keys (V := Nat)).1 (emptyRegistry Nat) 4 0 ⟨1, [(0, 4)]⟩
      (by decide) rfl,
   (C6_fresh_keys (V := Nat)).2 [Op.set true 4, Op.set true 6]
      (emptyRegistry Nat) ⟨2, [(1, 6), (0, 4)]⟩ [0, 1] [] (by decide) rfl⟩

/-- C7: the scan wrappers do classify the target as clean (empty name, nil
error), infected (name, scanned count, non-nil error) or erroring (non-nil
error), but they do not return the count of bytes processed in every case:
on the clean path and on the scan-error path the count out-parameter filled
by the engine is discarded and 0 is returned, contradicting the claim and
the wrappers' own doc comments; only the virus path returns the count.
Evaluated here at an engine outcome that scanned 100 bytes. -/
theorem C7_byte_count_dropped_on_clean (strErr : ErrorCode → String) :
    ScanFile strErr ⟨.success, "", 100⟩ = ("", 0, none)
    ∧ ScanDesc strErr ⟨.success, "", 100⟩ = ("", 0, none)
    ∧ ScanFile strErr ⟨.fail 2, "", 100⟩ = ("", 0, some (strErr (.fail 2)))
    ∧ ScanFileCb strErr (emptyRegistry Nat) 0 true ⟨.success, "", 100⟩ =
        .ok (("", 0, none), ⟨1, []⟩)
    ∧ ScanFile strErr ⟨.virus, "X", 100⟩ = ("X", 100, some (strErr .virus)) :=
  ⟨rfl, rfl, rfl, rfl, rfl⟩

/-- C8: when the directory changed, StatChkReload frees the contents of the
caller-supplied Stat structure and initializes a freshly allocated structure
that only the helper-local variable points to: the function returns
(true, iniErr) with no new pointer, the caller's pointer still names the
original structure, which is now freed, and the initialized structure lives
at a fresh address the caller has never seen. -/
theorem C8_statchkreload_caller_holds_freed (h : StatHeap) (p : Nat)
    (iniErr : Option String)
    (hwf : ∀ c ∈ keysOf h.cells, c < h.next) (hp : p ∈ keysOf h.cells) :
    lookupKey p (StatChkReload h p true iniErr).1.cells = some .freed
    ∧ (StatChkReload h p true iniErr).2 = (true, iniErr)
    ∧ ∃ q, q ≠ p ∧ q ∉ keysOf h.cells ∧
        lookupKey q (StatChkReload h p true iniErr).1.cells =
          some .initialized := by
  have hplt : p < h.next := hwf p hp
  have hpq : p ≠ h.next := Nat.ne_of_lt hplt
  refine ⟨?_, rfl, h.next, Ne.symm hpq,
    fun hm => absurd (hwf _ hm) (Nat.lt_irrefl _), ?_⟩
  · show lookupKey p (insertKey h.next .initialized (insertKey h.next
      .uninitialized (insertKey p .freed h.cells))) = some .freed
    rw [lookupKey_insert_ne _ _ _ _ hpq, lookupKey_insert_ne _ _ _ _ hpq]
    exact lookupKey_insert_self _ _ _
  · show lookupKey h.next (insertKey h.next .initialized (insertKey h.next
      .uninitialized (insertKey p .freed h.cells))) = some .initialized
    exact lookupKey_insert_self _ _ _

theorem C8_statchkreload_caller_holds_freed_witness :
    lookupKey 0 (StatChkReload ⟨1, [(0, StatCell.initialized)]⟩ 0 true
      none).1.cells = some StatCell.freed
    ∧ (StatChkReload ⟨1, [(0, StatCell.initialized)]⟩ 0 true none).2 =
      (true, none)
    ∧ ∃ q, q ≠ 0 ∧
        q ∉ keysOf (⟨1, [(0, StatCell.initialized)]⟩ : StatHeap).cells ∧
        lookupKey q (StatChkReload ⟨1, [(0, StatCell.initialized)]⟩ 0 true
          none).1.cells = some StatCell.initialized :=
  C8_statchkreload_caller_holds_freed ⟨1, [(0, StatCell.initialized)]⟩ 0 none
    (by decide) (by decide)

/-- C9: only the first call to Init runs cl_init (the sync.Once body): the
first call marks the once as done whatever cl_init returned, and every call
made in the done state returns a nil error no matter which flags it is
passed and no matter what the foreign initializer would return, so a failed
first initialization is never retried and its error never reported again. -/
theorem C9_init_runs_once (strErr : ErrorCode → String)
    (clInit : Nat → ErrorCode) (flags flags2 : Nat) :
    (Init strErr clInit false flags).1 = true
    ∧ Init strErr clInit true flags2 = (true, none) := by
  constructor
  · rcases h : clInit flags with _ | _ | c <;> simp [Init, h]
  · rfl

/-- C10: OpenMemory takes the address of the first element of its slice
unconditionally, so an empty slice is a runtime index-out-of-range panic
rather than an error value or a usable map, while any non-empty slice hands
back the foreign map handle. -/
theorem C10_openmemory_empty_slice_panics (f : Nat) :
    OpenMemory f [] = .error .indexOutOfRange
    ∧ ∀ (b : UInt8) (rest : List UInt8), OpenMemory f (b :: rest) = .ok f :=
  ⟨rfl, fun _ _ => rfl⟩

end Clamav
